import Mathlib

/-!
Verification development for the petalo PET reconstruction library.

The floating-point (`f64`/`f32`) scalars of the Rust code are modelled by exact
rationals (`ℚ`).  Where the code manufactures the special values `+∞` (positive
number divided by `0.0`) or `NaN` (`0.0/0.0`), the model uses `Option ℚ`, with
`none` standing for the special value produced at that spot; each definition
states which one it means.  Transcendental functions (`sqrt`, `exp`) appear only
in the Gaussian of `make_gauss`; those definitions are modelled over `ℝ` in a
separate section, and the TOF adapter takes the Gaussian as a function argument,
exactly as the Rust closure captures it.
-/

namespace Petalo

/-- Three-component vector (the code's `nc::math::Vector` / `Point`
specialised to the three dimensions the program always uses). -/
structure V3 (α : Type) where
  x : α
  y : α
  z : α
deriving DecidableEq

/-- Component access by axis number, mirroring `v[k]`. -/
def V3.get {α : Type} (v : V3 α) : Fin 3 → α
  | 0 => v.x
  | 1 => v.y
  | 2 => v.z

/-- Build a vector from an axis-indexed function (used to model the
`for d in 0..dimensions` loops, whose body for axis `k` reads and writes
only axis `k`). -/
def V3.ofFn {α : Type} (f : Fin 3 → α) : V3 α :=
  ⟨f 0, f 1, f 2⟩

def V3.map {α β : Type} (f : α → β) (v : V3 α) : V3 β :=
  ⟨f v.x, f v.y, f v.z⟩

def V3.zipWith {α β γ : Type} (f : α → β → γ) (a : V3 α) (b : V3 β) : V3 γ :=
  ⟨f a.x b.x, f a.y b.y, f a.z b.z⟩

/-- Model: `p2 - p1`, componentwise. -/
def V3.sub (a b : V3 ℚ) : V3 ℚ := V3.zipWith (· - ·) a b

/-- Model: `p + v`, componentwise. -/
def V3.add (a b : V3 ℚ) : V3 ℚ := V3.zipWith (· + ·) a b

/-- Model: `v * s`, scalar multiple. -/
def V3.smul (s : ℚ) (v : V3 ℚ) : V3 ℚ := V3.map (s * ·) v

/-- Squared euclidean norm.  The code's `.norm()` is the (irrational) square
root of this; theorems carry the norm as a parameter `nrm` constrained by
`nrm * nrm = normSq v`, `0 ≤ nrm`. -/
def normSq (v : V3 ℚ) : ℚ := v.x * v.x + v.y * v.y + v.z * v.z

/-!  Helpers for `f64` values that can be `+∞`: `Option ℚ` with `none = +∞`.
In `WeightsAlongLOR` the only source of `+∞` is `voxel_size[k] / 0.0`
(positive numerator) for axes in which the LOR direction vanishes. -/

/-- Model: `a / b` where `b = 0` gives `+∞` (`none`); models the `f64` division
`voxel_size.component_div(&lor_direction)` for a positive numerator. -/
def fdiv (a b : ℚ) : Option ℚ := if b = 0 then none else some (a / b)

/-- Model: `f64` strict `<` where `none` is `+∞` (`+∞ < x` is false, `x < +∞` is
true for finite `x`); the comparison used by nalgebra's `argmin`. -/
def flt : Option ℚ → Option ℚ → Bool
  | some a, some b => decide (a < b)
  | some _, none => true
  | none, _ => false

/-- Model: `x ≤ 0` for an `f64` that may be `+∞` (`+∞ ≤ 0` is false). -/
def fle0 : Option ℚ → Bool
  | some a => decide (a ≤ 0)
  | none => false

/-- Subtract a finite value from an `f64` that may be `+∞`. -/
def fsub (x : Option ℚ) (d : ℚ) : Option ℚ := x.map (· - d)

/-- Multiply an `f64` that may be `+∞` by a finite positive factor
(`(1 - f) * v`; the factor `1 - f` is in `(0, 1]` wherever this is used). -/
def fmulPos (c : ℚ) (x : Option ℚ) : Option ℚ := x.map (c * ·)

/-- Model: `src/weights.rs` `VoxelBox`: half-widths of the box, voxel counts, and
per-axis voxel size. -/
structure VoxelBox where
  half_width : V3 ℚ
  n : V3 ℕ
  voxel_size : V3 ℚ
deriving DecidableEq

/-- Model: `VoxelBox::voxel_size`: `(half_width * 2) ⊘ n` componentwise.
(`n` with a zero component is rejected at startup by the spec's
configuration rules; there `f64` would give `∞`, `ℚ` gives `0`.) -/
def VoxelBox.mkVoxelSize (n : V3 ℕ) (half_width : V3 ℚ) : V3 ℚ :=
  V3.zipWith (fun (hw : ℚ) (k : ℕ) => (2 * hw) / (k : ℚ)) half_width n

/-- Model: `VoxelBox::new`. -/
def VoxelBox.new (hw : V3 ℚ) (n : V3 ℕ) : VoxelBox :=
  { half_width := hw, n := n, voxel_size := VoxelBox.mkVoxelSize n hw }

/-- Per-axis slab intersection parameters for the segment `p1 + s·(p2-p1)`,
`s ∈ [0,1]`, against the slab `[-hw, hw]`.  Modelled from the spec (§4.1):
the `ncollide` dependency's `Cuboid::toi_with_ray` solid slab test, used by
`VoxelBox::entry`.  For a zero direction component the slab constrains
nothing when the origin lies inside it (the neutral interval `(0,1)` is
returned) and the ray misses otherwise. -/
def slabParam (p d hw : ℚ) : Option (ℚ × ℚ) :=
  if d = 0 then
    (if -hw ≤ p ∧ p ≤ hw then some (0, 1) else none)
  else
    some (min ((-hw - p) / d) ((hw - p) / d), max ((-hw - p) / d) ((hw - p) / d))

/-- Modelled from the spec (§4.1): `VoxelBox::entry`'s ray/box intersection,
reparametrised by `s = toi / ‖p2-p1‖` so that everything is rational (the
code's `toi` runs along the normalised direction up to `max_toi = ‖p2-p1‖`;
dividing by the norm turns `[0, ‖p2-p1‖]` into `[0,1]` and makes the entry
point `p1 + s_in·(p2-p1)`).  Returns the pair `(s_in, s_out)`: tightest
entry `≥ 0`, loosest exit `≤ 1`; a miss if `s_in > s_out`.  Zero-length
LORs miss (spec §4.2 edge-case policy; the code normalises the zero vector
to NaN there and the ray cast fails). -/
def VoxelBox.entryParam (vbox : VoxelBox) (p1 p2 : V3 ℚ) : Option (ℚ × ℚ) :=
  if p1 = p2 then none else
  let d := V3.sub p2 p1
  match slabParam p1.x d.x vbox.half_width.x,
        slabParam p1.y d.y vbox.half_width.y,
        slabParam p1.z d.z vbox.half_width.z with
  | some sx, some sy, some sz =>
    let sIn := max 0 (max sx.1 (max sy.1 sz.1))
    let sOut := min 1 (min sx.2 (min sy.2 sz.2))
    if sIn ≤ sOut then some (sIn, sOut) else none
  | _, _, _ => none

/-- Model: `VoxelBox::entry`: the entry point itself, `p1 + s_in·(p2-p1)`. -/
def VoxelBox.entry (vbox : VoxelBox) (p1 p2 : V3 ℚ) : Option (V3 ℚ) :=
  (vbox.entryParam p1 p2).map (fun s => V3.add p1 (V3.smul s.1 (V3.sub p2 p1)))

/-- Distance between the entry and exit points of the box
(`= (s_out - s_in)·‖p2-p1‖`), the reference quantity of the repo's own
property test; `0` when the LOR misses. -/
def inBoxLength (nrm : ℚ) (p1 p2 : V3 ℚ) (vbox : VoxelBox) : ℚ :=
  match vbox.entryParam p1 p2 with
  | none => 0
  | some s => (s.2 - s.1) * nrm

/-- Model: `src/weights.rs` `WeightsAlongLOR`: the state of the LOR/voxel traversal
iterator.  `to_boundary` and `voxel_size` components are `f64` values that
can be `+∞` (`none`), see `fdiv`. -/
inductive WeightsAlongLOR where
  | Outside : WeightsAlongLOR
  | Inside
      (to_boundary : V3 (Option ℚ))
      (n_voxels : V3 ℕ)
      (voxel_size : V3 (Option ℚ))
      (index : V3 ℕ)
      (flipped : V3 Bool)
deriving DecidableEq

/-- The snap-to-zero tolerance of the initialiser (`1e-7` in voxel units). -/
def snapEps : ℚ := 1 / 10000000

/-- Model: `WeightsAlongLOR::new`.  The parameter `nrm` stands for the `f64` value
`(p2-p1).norm()`: it enters only through
`voxel_size.component_div(&lor_direction)` with
`lor_direction = (p2-p1)/nrm`, i.e. as `voxel_size[k]·nrm/(p2-p1)[k]`.
Theorems constrain it by `nrm·nrm = normSq (p2-p1)`, `0 ≤ nrm`. -/
def WeightsAlongLOR.new (nrm : ℚ) (p1 p2 : V3 ℚ) (vbox : VoxelBox) :
    WeightsAlongLOR :=
  -- flip axes in which the LOR direction is negative
  let dir0 := V3.sub p2 p1
  let flipped : V3 Bool := V3.map (fun d => decide (d < 0)) dir0
  let q1 : V3 ℚ := V3.zipWith (fun (f : Bool) (c : ℚ) => if f then -c else c) flipped p1
  let q2 : V3 ℚ := V3.zipWith (fun (f : Bool) (c : ℚ) => if f then -c else c) flipped p2
  match vbox.entryParam q1 q2 with
  | none => WeightsAlongLOR.Outside
  | some s =>
    -- entry point, moved to corner-origin coordinates, in voxel units
    let ep : V3 ℚ := V3.add (V3.add q1 (V3.smul s.1 (V3.sub q2 q1))) vbox.half_width
    let epv : V3 ℚ := V3.zipWith (· / ·) ep vbox.voxel_size
    -- snap tiny values (|x| < 1e-7) to zero
    let epv : V3 ℚ := V3.map (fun x => if |x| < snapEps then 0 else x) epv
    let index : V3 ℕ := V3.map (fun x => (⌊x⌋).toNat) epv
    -- voxel size in LOR length units: voxel_size[k] / ((q2-q1)[k]/nrm)
    let d := V3.sub q2 q1
    let voxel_size : V3 (Option ℚ) :=
      V3.zipWith (fun (v : ℚ) (dk : ℚ) => fdiv (v * nrm) dk) vbox.voxel_size d
    let frac : V3 ℚ := V3.map (fun x => x - ⌊x⌋) epv
    let to_boundary : V3 (Option ℚ) :=
      V3.zipWith (fun (f : ℚ) (v : Option ℚ) => fmulPos (1 - f) v) frac voxel_size
    WeightsAlongLOR.Inside to_boundary vbox.n voxel_size index flipped

/-- nalgebra's `Vector::argmin` on a 3-vector of `f64`s that may be `+∞`:
scan in axis order keeping the first strict minimum. -/
def argmin (v : V3 (Option ℚ)) : Fin 3 × Option ℚ :=
  let p := if flt v.y v.x then ((1 : Fin 3), v.y) else ((0 : Fin 3), v.x)
  if flt v.z p.2 then ((2 : Fin 3), v.z) else p

/-- Model: `<WeightsAlongLOR as Iterator>::next`.  `none` is the iterator's `None`;
otherwise the yielded `(index, distance)` pair together with the successor
state.  The yielded `distance` is `(argmin …).2.getD 0`: in every state
reachable from `new` some `to_boundary` component is finite, so the argmin
is finite and `getD 0` never fires (the code would carry `+∞` there).
`n - 1 - index` is the code's usize subtraction, in bounds whenever
`index < n`. -/
def WeightsAlongLOR.next :
    WeightsAlongLOR → Option ((V3 ℕ × ℚ) × WeightsAlongLOR)
  | WeightsAlongLOR.Outside => none
  | WeightsAlongLOR.Inside tb n vsz idx flip =>
    let trueIndex : V3 ℕ :=
      V3.ofFn (fun k =>
        if flip.get k then n.get k - 1 - idx.get k else idx.get k)
    let am := argmin tb
    let dim := am.1
    let distance : ℚ := am.2.getD 0
    let tb1 : V3 (Option ℚ) := V3.map (fun c => fsub c distance) tb
    -- for every axis at a boundary: reset the distance, advance the index
    let tb2 : V3 (Option ℚ) :=
      V3.ofFn (fun k => if fle0 (tb1.get k) then vsz.get k else tb1.get k)
    let idx2 : V3 ℕ :=
      V3.ofFn (fun k => if fle0 (tb1.get k) then idx.get k + 1 else idx.get k)
    let next_state :=
      if n.get dim ≤ idx2.get dim then WeightsAlongLOR.Outside
      else WeightsAlongLOR.Inside tb2 n vsz idx2 flip
    some ((trueIndex, distance), next_state)

/-- The state after one call to `next` (`Outside` is absorbing). -/
def WeightsAlongLOR.nextState (s : WeightsAlongLOR) : WeightsAlongLOR :=
  match s.next with
  | none => s
  | some (_, s') => s'

/-- The state after `m` calls to `next`. -/
def WeightsAlongLOR.stateAfter (s : WeightsAlongLOR) : ℕ → WeightsAlongLOR
  | 0 => s
  | m + 1 => WeightsAlongLOR.stateAfter s.nextState m

/-- Collect the items yielded by up to `fuel` calls to `next`. -/
def WeightsAlongLOR.runList (s : WeightsAlongLOR) : ℕ → List (V3 ℕ × ℚ)
  | 0 => []
  | fuel + 1 =>
    match s.next with
    | none => []
    | some (item, s') => item :: WeightsAlongLOR.runList s' fuel


/-- Invariant of every state reachable from `new`: some `to_boundary`
component is finite, and `to_boundary` and `voxel_size` are finite on the
same axes. -/
def GoodState : WeightsAlongLOR → Prop
  | WeightsAlongLOR.Outside => True
  | WeightsAlongLOR.Inside tb _ vsz _ _ =>
    (∃ k, (tb.get k).isSome) ∧ ∀ k, (tb.get k).isSome = (vsz.get k).isSome

/-- Termination measure: (one more than) the number of voxels the traversal
can still enter. -/
def voxelsLeft : WeightsAlongLOR → ℕ
  | WeightsAlongLOR.Outside => 0
  | WeightsAlongLOR.Inside _ n _ idx _ =>
    1 + ((n.x - min idx.x n.x) + (n.y - min idx.y n.y) + (n.z - min idx.z n.z))

/-! ### TOF adapter (`src/weights.rs`) -/

/-- Model: `src/weights.rs` line 5: `const c : Length = 3e3; // cm / ns` — the
speed of light in the program's units. -/
def c : ℚ := 3000

/-- The closure returned by `tof_gaussian`, applied along a traversal
stream: its captured mutable `distance_to_peak` becomes an explicit
argument that decreases by each processed weight.  For each incoming
`(index, weight)` it emits `(index, weight * g (distance_to_peak - weight/2))`
and then subtracts `weight` from `distance_to_peak`. -/
def tofAdjust (g : ℚ → ℚ) (distance_to_peak : ℚ) :
    List (V3 ℕ × ℚ) → List (V3 ℕ × ℚ)
  | [] => []
  | (i, w) :: rest =>
    (i, w * g (distance_to_peak - w / 2)) :: tofAdjust g (distance_to_peak - w) rest

/-- Model: `src/weights.rs` `tof_gaussian`, mapped over a traversal stream `ws`.
`g` stands for the captured `make_gauss(sigma)` closure (whose
transcendental formula is modelled separately, over `ℝ`, as `make_gauss`);
`nrm` stands for the norm `(p1 - p2).norm() = (p2 - p1).norm()` as in
`WeightsAlongLOR.new`.  `none` models the panicking closure produced when
the LOR misses the box.  The distance from `p1` to the entry point,
`(entry - p1).norm()`, equals `s_in · nrm` because `entry = p1 + s_in·(p2-p1)`. -/
def tof_gaussian (g : ℚ → ℚ) (nrm : ℚ) (p1 p2 : V3 ℚ) (t1 t2 : ℚ)
    (vbox : VoxelBox) (ws : List (V3 ℕ × ℚ)) : Option (List (V3 ℕ × ℚ)) :=
  match vbox.entryParam p1 p2 with
  | none => none
  | some s =>
    let p1_to_entry := s.1 * nrm
    let p1_to_peak := (1 / 2) * (nrm + c * (t1 - t2))
    some (tofAdjust g (p1_to_peak - p1_to_entry) ws)

/-! ### The Gaussian TOF factors, over `ℝ` -/

/-- Model: `src/weights.rs` `make_gauss`.  Note: the constant *named*
`root_two_pi` is assigned `std::f64::consts::PI.sqrt()`, which is `√π`,
not `√(2π)`; and this version applies no cutoff. -/
noncomputable def make_gauss (sigma : ℝ) : ℝ → ℝ :=
  let mu : ℝ := 0
  let root_two_pi : ℝ := Real.sqrt Real.pi
  let a : ℝ := 1 / (sigma * root_two_pi)
  fun x =>
    let y := (x - mu) / sigma
    let z := y * y
    a * Real.exp (-(1/2) * z)

namespace Gauss

/-- Model: `src/gauss.rs` `make_gauss`, with the optional cutoff.  `cutoff = none`
models the `INFINITY` branch of
`cutoff.map_or(mm(std::f32::INFINITY), |width| width * sigma)`: every
finite `|dx|` passes the comparison. -/
noncomputable def make_gauss (sigma : ℝ) (cutoff : Option ℝ) : ℝ → ℝ :=
  let root_two_pi : ℝ := Real.sqrt (2 * Real.pi)
  let peak_height : ℝ := 1 / (sigma * root_two_pi)
  fun dx =>
    if h : ∀ w ∈ cutoff, |dx| < w * sigma then
      let y : ℝ := dx / sigma
      let z : ℝ := y * y
      peak_height * Real.exp (-(1/2) * z)
    else 0

end Gauss

/-- The Gaussian of the spec (§4.3, the claim's formula):
`g(x) = (1/(σ·√(2π))) · exp(−½(x/σ)²)` when `|x| < cutoff·σ`, else 0;
when no cutoff is configured the Gaussian is never truncated. -/
noncomputable def gauss_spec (sigma : ℝ) (cutoff : Option ℝ) (x : ℝ) : ℝ :=
  if h : ∀ w ∈ cutoff, |x| < w * sigma then
    (1 / (sigma * Real.sqrt (2 * Real.pi))) * Real.exp (-(1/2) * (x / sigma)^2)
  else 0

/-! ### Scattergram (`src/lorogram/mod.rs`) -/

/-- Model: `f32` strict `<` where either side may be NaN (`none`); any comparison
against NaN is false. -/
def nlt (a b : Option ℚ) : Bool :=
  match a, b with
  | some a, some b => decide (a < b)
  | _, _ => false

/-- Rust's `f32::min`: ignores a NaN argument. -/
def nmin (a b : Option ℚ) : Option ℚ :=
  match a, b with
  | some a, some b => some (min a b)
  | some a, none => some a
  | none, b => b

/-- Model: `src/io/hdf5.rs` `Hdf5Lor`: one record of the tabular LOR format.  Each
field is an `f32` that may be NaN (`none`). -/
structure Hdf5Lor where
  dt : Option ℚ
  x1 : Option ℚ
  y1 : Option ℚ
  z1 : Option ℚ
  x2 : Option ℚ
  y2 : Option ℚ
  z2 : Option ℚ
  q1 : Option ℚ
  q2 : Option ℚ
  E1 : Option ℚ
  E2 : Option ℚ
deriving DecidableEq

/-- The `LOR` record `{dt, p1, p2, additive_correction}`.  The type's own
module (`exports`/`system_matrix`) is not part of this snapshot; the fields
are the ones used by `impl From<Hdf5Lor> for LOR` in `src/io/hdf5.rs`. -/
structure LOR where
  dt : Option ℚ
  p1 : V3 (Option ℚ)
  p2 : V3 (Option ℚ)
  additive_correction : ℚ
deriving DecidableEq

/-- Model: `impl From<Hdf5Lor> for LOR` (src/io/hdf5.rs): keep `dt` and the two
points, set `additive_correction` to `ratio(1.0)`. -/
def LOR.fromHdf5 (l : Hdf5Lor) : LOR :=
  { dt := l.dt
    p1 := ⟨l.x1, l.y1, l.z1⟩
    p2 := ⟨l.x2, l.y2, l.z2⟩
    additive_correction := 1 }

/-- Model: `Prompt`: true / scatter / random prompt signals. -/
inductive Prompt where
  | True
  | Scatter
  | Random
deriving DecidableEq

/-- Model: `Scattergram`: the two `Box<dyn Lorogram>` histograms, each modelled by
the list of LORs filled into it (a histogram's contents are determined by
the fills it received; its bin counts are recovered by `Lorogram.value`). -/
structure Scattergram where
  trues : List LOR
  scatters : List LOR
deriving DecidableEq

/-- Model: `Scattergram::new` with `make_empty_lorogram()`: two empty histograms. -/
def Scattergram.new : Scattergram := { trues := [], scatters := [] }

/-- Model: `Lorogram::value` of the modelled histogram: the number of filled LORs
landing in the queried LOR's bin.  `sameBin l m` abstracts the binning of
the `ndhistogram` dependency: it says `m` falls in the bin addressed by `l`. -/
def Lorogram.value (sameBin : LOR → LOR → Bool) (filled : List LOR) (l : LOR) : ℕ :=
  (filled.filter (sameBin l)).length

/-- Model: `Scattergram::fill`: fill the histogram matching the prompt kind;
`none` models the `panic` on `Prompt::Random`. -/
def Scattergram.fill (sg : Scattergram) (kind : Prompt) (lor : LOR) :
    Option Scattergram :=
  match kind with
  | Prompt.True => some { sg with trues := sg.trues ++ [lor] }
  | Prompt.Scatter => some { sg with scatters := sg.scatters ++ [lor] }
  | Prompt.Random => none

/-- Model: `Scattergram::value`: `scatters / (trues + scatters)` computed in `f32`
from the two bin counts.  The code has no zero-denominator guard, so when
both counts are zero the `f32` division `0.0 / 0.0` yields NaN, modelled
as `none`. -/
def Scattergram.value (sameBin : LOR → LOR → Bool) (sg : Scattergram)
    (l : LOR) : Option ℚ :=
  let trues : ℚ := (Lorogram.value sameBin sg.trues l : ℚ)
  let scatters : ℚ := (Lorogram.value sameBin sg.scatters l : ℚ)
  if trues + scatters = 0 then none else some (scatters / (trues + scatters))

/-- The `for h5lor in lors { … }` loop of `fill_scattergram`: skip a record
iff `x1.is_nan() || x2.is_nan()`, classify the rest as `Scatter` iff
`E1.min(E2) < 511.0`, and fill it.  A `Prompt::Random` panic inside
`Scattergram::fill` would abort the loop (`none`); the kinds passed here
never are `Random`. -/
def fill_scattergram_loop (sg : Scattergram) : List Hdf5Lor → Option Scattergram
  | [] => some sg
  | h :: rest =>
    if h.x1.isNone || h.x2.isNone then fill_scattergram_loop sg rest
    else
      match sg.fill
        (if nlt (nmin h.E1 h.E2) (some 511) then Prompt.Scatter else Prompt.True)
        (LOR.fromHdf5 h) with
      | none => none
      | some sg2 => fill_scattergram_loop sg2 rest

/-- Model: `fill_scattergram` (src/lorogram/mod.rs): build a scattergram from a
table of `Hdf5Lor` records. -/
def fill_scattergram (lors : List Hdf5Lor) : Option Scattergram :=
  fill_scattergram_loop Scattergram.new lors

/-! ### Cyclic axis (`src/lorogram/axis.rs`) -/

/-- The `ndhistogram` dependency's `Uniform` axis, modelled from its
documentation: `nbins` equal bins on `[low, high)` plus an underflow bin
`0` and an overflow bin `nbins + 1`. -/
structure Uniform where
  nbins : ℕ
  low : ℚ
  high : ℚ
deriving DecidableEq

/-- Modelled from the ndhistogram docs: the bin of a coordinate on the
uniform axis — `0` for underflow, `nbins + 1` for overflow, otherwise
`1 + ⌊(x - low)·nbins/(high - low)⌋`. -/
def Uniform.index (u : Uniform) (x : ℚ) : Option ℕ :=
  if x < u.low then some 0
  else if u.high ≤ x then some (u.nbins + 1)
  else some (1 + (⌊(x - u.low) * u.nbins / (u.high - u.low)⌋).toNat)

/-- ndhistogram's `Uniform::num_bins` counts the flow bins. -/
def Uniform.num_bins (u : Uniform) : ℕ := u.nbins + 2

/-- Model: `Cyclic` wraps a `Uniform` axis (src/lorogram/axis.rs). -/
structure Cyclic where
  axis : Uniform
deriving DecidableEq

/-- Model: `Cyclic::new(nbins, low, high)`. -/
def Cyclic.new (nbins : ℕ) (low high : ℚ) : Cyclic := ⟨⟨nbins, low, high⟩⟩

/-- The loop `while x >= hi { x = x - range }` of `Cyclic::index`, with
explicit fuel (the definitions below always supply enough fuel, see the
wrap lemmas). -/
def wrapDownGo (hi range : ℚ) : ℕ → ℚ → ℚ
  | 0, x => x
  | fuel + 1, x => if hi ≤ x then wrapDownGo hi range fuel (x - range) else x

/-- Model: `while x >= hi { x = x - range }` run to completion (for `0 < range`). -/
def wrapDown (hi range x : ℚ) : ℚ :=
  wrapDownGo hi range ((⌊(x - hi) / range⌋ + 1).toNat) x

/-- The loop `while x < lo { x = x + range }` of `Cyclic::index`, with
explicit fuel. -/
def wrapUpGo (lo range : ℚ) : ℕ → ℚ → ℚ
  | 0, x => x
  | fuel + 1, x => if x < lo then wrapUpGo lo range fuel (x + range) else x

/-- Model: `while x < lo { x = x + range }` run to completion (for `0 < range`). -/
def wrapUp (lo range x : ℚ) : ℚ :=
  wrapUpGo lo range ((⌈(lo - x) / range⌉).toNat) x

/-- Model: `Cyclic::index`: wrap the coordinate into `[low, high)` with the two
while loops, delegate to the wrapped uniform axis, and subtract 1 (skipping
its underflow bin). -/
def Cyclic.index (cx : Cyclic) (x : ℚ) : Option ℕ :=
  let hi := cx.axis.high
  let lo := cx.axis.low
  let range := hi - lo
  let x1 := wrapDown hi range x
  let x2 := wrapUp lo range x1
  (cx.axis.index x2).map (fun n => n - 1)

/-- Model: `Cyclic::num_bins`: the wrapped axis's bins minus its two flow bins. -/
def Cyclic.num_bins (cx : Cyclic) : ℕ := cx.axis.num_bins - 2

/-- Model: `std::f32::consts::PI`: the exact rational value of the `f32` constant
(bit pattern `0x40490FDB`, i.e. `13176795 / 2^22`). -/
def pi32 : ℚ := 13176795 / 4194304

/-- Model: `axis_phi` (src/lorogram/mod.rs): the cyclic binning of the φ axis,
`Cyclic::new(nbins, 0.0, PI)`.  (The `MappedAxis` projector applies
`atan2` first; the binning itself is what the cyclicity claim is about.) -/
def axis_phi (nbins : ℕ) : Cyclic := Cyclic.new nbins 0 pi32

/-! ### LOR reader (`src/io/hdf5.rs`) -/

/-- Model: `BoundPair<T>` of the `exports` module (not in this snapshot).
Modelled from the spec: "two inclusive bound-pair filters"; `none` is an
unbounded end.  A bounded end compares false against NaN (`f32` semantics). -/
structure BoundPair where
  lo : Option ℚ
  hi : Option ℚ
deriving DecidableEq

/-- Model: `RangeBounds::contains` for an inclusive bound pair over possibly-NaN
`f32` values. -/
def BoundPair.contains (b : BoundPair) (x : Option ℚ) : Bool :=
  (match b.lo, x with
   | none, _ => true
   | some _, none => false
   | some l, some v => decide (l ≤ v)) &&
  (match b.hi, x with
   | none, _ => true
   | some _, none => false
   | some h, some v => decide (v ≤ h))

/-- Model: `read_lors` (src/io/hdf5.rs), non-legacy branch, once the HDF5 table
slice has been read into `input`: keep the records passing both the `ecut`
and `qcut` filters, count the rest as rejected, then report
`100 * used / (used + rejected)`.  When the event range selected zero
records, `used + rejected = 0` and the integer division panics: modelled
as `none`. -/
def read_lors (ecut qcut : BoundPair) (input : List Hdf5Lor) :
    Option (List LOR) :=
  let kept := input.filter (fun h =>
    (ecut.contains h.E1 && ecut.contains h.E2) &&
    (qcut.contains h.q1 && qcut.contains h.q2))
  let used := kept.length
  let rejected := input.length - used
  if used + rejected = 0 then none
  else some (kept.map LOR.fromHdf5)

/-! ### Voxel centres (`src/weights.rs`) -/

/-- Model: `VoxelBox::voxel_centre`: `i.map(|n| n as f64 + 0.5)` multiplied
componentwise by `voxel_size` — with no `-half_width` translation. -/
def VoxelBox.voxel_centre (vbox : VoxelBox) (i : V3 ℕ) : V3 ℚ :=
  V3.zipWith (fun (n : ℕ) (vs : ℚ) => ((n : ℚ) + 1/2) * vs) i vbox.voxel_size

/-- The index-to-centre map of the spec (§3, C2 component table): with the
origin at the FOV centre and voxel `(0,0,0)` the most negative corner,
`voxel_centre(i) = -half_width + (i + 0.5) ⊙ voxel_size`. -/
def voxel_centre_spec (vbox : VoxelBox) (i : V3 ℕ) : V3 ℚ :=
  V3.add (V3.map Neg.neg vbox.half_width)
    (V3.zipWith (fun (n : ℕ) (vs : ℚ) => ((n : ℚ) + 1/2) * vs) i vbox.voxel_size)

/-- A concrete all-zero LOR, used to instantiate theorems. -/
def lorZero : LOR :=
  { dt := some 0, p1 := ⟨some 0, some 0, some 0⟩,
    p2 := ⟨some 0, some 0, some 0⟩, additive_correction := 1 }

/-- A concrete `Hdf5Lor` whose `y1` is NaN while `x1` and `x2` are finite,
with both energies 600 keV. -/
def h5NaNy : Hdf5Lor :=
  { dt := some 0, x1 := some 0, y1 := none, z1 := some 0,
    x2 := some 1, y2 := some 0, z2 := some 0, q1 := some 0, q2 := some 0,
    E1 := some 600, E2 := some 600 }

/-- The skip test of `fill_scattergram`: `x1.is_nan() || x2.is_nan()`. -/
def skipLor (h : Hdf5Lor) : Bool := h.x1.isNone || h.x2.isNone

/-- The classification test of `fill_scattergram`: `E1.min(E2) < 511.0`. -/
def isScatter (h : Hdf5Lor) : Bool := nlt (nmin h.E1 h.E2) (some 511)

/-! ### Finiteness of the traversal iterator -/

@[simp] theorem V3.get_map {α β : Type} (f : α → β) (v : V3 α) (k : Fin 3) :
    (V3.map f v).get k = f (v.get k) := by
  fin_cases k <;> rfl

@[simp] theorem V3.get_ofFn {α : Type} (f : Fin 3 → α) (k : Fin 3) :
    (V3.ofFn f).get k = f k := by
  fin_cases k <;> rfl

@[simp] theorem V3.get_zipWith {α β γ : Type} (f : α → β → γ) (a : V3 α)
    (b : V3 β) (k : Fin 3) :
    (V3.zipWith f a b).get k = f (a.get k) (b.get k) := by
  fin_cases k <;> rfl

/-- The argmin's payload is the component at the argmin's axis. -/
theorem argmin_val (v : V3 (Option ℚ)) : (argmin v).2 = v.get (argmin v).1 := by
  unfold argmin
  rcases hyx : flt v.y v.x <;> simp only [hyx, if_true, if_false] <;>
    rcases hz : flt v.z _ <;> simp_all [V3.get] <;> rfl

/-- If some component is finite then so is the argmin (`+∞` never wins a
strict `<` against a finite value). -/
theorem argmin_isSome (v : V3 (Option ℚ)) (h : ∃ k, (v.get k).isSome) :
    (argmin v).2.isSome := by
  obtain ⟨x, y, z⟩ := v
  obtain ⟨k, hk⟩ := h
  fin_cases k <;>
    simp only [V3.get] at hk <;>
    cases x <;> cases y <;> cases z <;>
    simp_all [argmin, flt] <;> split <;> simp_all <;> split <;> simp_all

@[simp] theorem fmulPos_isSome (c : ℚ) (x : Option ℚ) :
    (fmulPos c x).isSome = x.isSome := by
  cases x <;> rfl

theorem fdiv_isSome (a b : ℚ) (h : b ≠ 0) : (fdiv a b).isSome = true := by
  simp [fdiv, h]

/-- Model: `next` on an `Inside` state, in explicit form. -/
theorem next_Inside (tb : V3 (Option ℚ)) (n : V3 ℕ) (vsz : V3 (Option ℚ))
    (idx : V3 ℕ) (flip : V3 Bool) :
    WeightsAlongLOR.next (WeightsAlongLOR.Inside tb n vsz idx flip) =
    some ((V3.ofFn (fun k =>
             if flip.get k then n.get k - 1 - idx.get k else idx.get k),
           (argmin tb).2.getD 0),
          if n.get (argmin tb).1 ≤
              (if fle0 (fsub (tb.get (argmin tb).1) ((argmin tb).2.getD 0))
               then idx.get (argmin tb).1 + 1 else idx.get (argmin tb).1)
          then WeightsAlongLOR.Outside
          else WeightsAlongLOR.Inside
            (V3.ofFn (fun k =>
              if fle0 (fsub (tb.get k) ((argmin tb).2.getD 0))
              then vsz.get k else fsub (tb.get k) ((argmin tb).2.getD 0)))
            n vsz
            (V3.ofFn (fun k =>
              if fle0 (fsub (tb.get k) ((argmin tb).2.getD 0))
              then idx.get k + 1 else idx.get k))
            flip) := by
  simp only [WeightsAlongLOR.next, V3.get_map, V3.get_ofFn]

/-- One step from a good `Inside` state: the iterator yields an item and the
measure strictly decreases. -/
theorem step_decreases (tb : V3 (Option ℚ)) (n : V3 ℕ) (vsz : V3 (Option ℚ))
    (idx : V3 ℕ) (flip : V3 Bool)
    (h : GoodState (WeightsAlongLOR.Inside tb n vsz idx flip)) :
    ∃ it s',
      WeightsAlongLOR.next (WeightsAlongLOR.Inside tb n vsz idx flip) =
        some (it, s') ∧
      GoodState s' ∧
      voxelsLeft s' < voxelsLeft (WeightsAlongLOR.Inside tb n vsz idx flip) := by
  obtain ⟨hex, hsame⟩ := h
  obtain ⟨d, hd⟩ := Option.isSome_iff_exists.mp (argmin_isSome tb hex)
  have hvalraw := argmin_val tb
  rcases ham : argmin tb with ⟨dim, dv⟩
  rw [ham] at hd hvalraw
  dsimp only at hd hvalraw
  have hval : tb.get dim = some d := by rw [← hvalraw]; exact hd
  have hd0 : (dv.getD 0 : ℚ) = d := by rw [hd]; rfl
  -- the argmin axis always resets: its remaining distance becomes exactly 0
  have hreset : fle0 (fsub (tb.get dim) (dv.getD 0)) = true := by
    simp [hval, hd0, fsub, fle0]
  have hnext := next_Inside tb n vsz idx flip
  rw [ham] at hnext
  dsimp only at hnext
  rw [hreset] at hnext
  rw [if_pos rfl] at hnext
  by_cases hout : n.get dim ≤ idx.get dim + 1
  · rw [if_pos hout] at hnext
    refine ⟨_, _, hnext, trivial, ?_⟩
    simp [voxelsLeft]
  · rw [if_neg hout] at hnext
    refine ⟨_, _, hnext, ⟨⟨dim, ?_⟩, ?_⟩, ?_⟩
    · -- some boundary distance stays finite: the reset axis gets voxel_size
      simp only [V3.get_ofFn]
      rw [hreset, if_pos rfl, ← hsame dim, hval]
      rfl
    · -- finiteness pattern is preserved axis by axis
      intro k
      simp only [V3.get_ofFn]
      by_cases hk : fle0 (fsub (tb.get k) (dv.getD 0)) = true
      · rw [if_pos hk]
      · rw [if_neg hk]
        simp [fsub, hsame k]
    · -- the measure decreases: the argmin axis advances and stays in range
      have hFd : (if fle0 (fsub (tb.get dim) (dv.getD 0))
          then idx.get dim + 1 else idx.get dim) = idx.get dim + 1 := by
        rw [hreset]; simp
      have hF : ∀ k : Fin 3, (if fle0 (fsub (tb.get k) (dv.getD 0))
          then idx.get k + 1 else idx.get k) = idx.get k + 1 ∨
          (if fle0 (fsub (tb.get k) (dv.getD 0))
          then idx.get k + 1 else idx.get k) = idx.get k := by
        intro k; split <;> simp
      have hnotout : idx.get dim + 1 < n.get dim := by omega
      have h0 := hF 0
      have h1 := hF 1
      have h2 := hF 2
      simp only [voxelsLeft, V3.ofFn, V3.get] at h0 h1 h2 hFd hnotout ⊢
      fin_cases dim <;>
        simp only [V3.get] at hFd hnotout <;>
        [(rw [hFd] at h0 ⊢); (rw [hFd] at h1 ⊢); (rw [hFd] at h2 ⊢)] <;>
        rcases h0 with h0 | h0 <;> rcases h1 with h1 | h1 <;>
          rcases h2 with h2 | h2 <;>
        simp only [h0, h1, h2] <;> omega

theorem nextState_outside : WeightsAlongLOR.nextState WeightsAlongLOR.Outside =
    WeightsAlongLOR.Outside := rfl

theorem stateAfter_outside (m : ℕ) :
    WeightsAlongLOR.stateAfter WeightsAlongLOR.Outside m =
      WeightsAlongLOR.Outside := by
  induction m with
  | zero => rfl
  | succ f ih => rw [WeightsAlongLOR.stateAfter, nextState_outside]; exact ih

/-- From any good state, the iterator reaches `Outside` within `voxelsLeft`
steps. -/
theorem stateAfter_eq_outside :
    ∀ fuel s, GoodState s → voxelsLeft s ≤ fuel →
      WeightsAlongLOR.stateAfter s fuel = WeightsAlongLOR.Outside := by
  intro fuel
  induction fuel with
  | zero =>
    intro s hg hm
    cases s with
    | Outside => rfl
    | Inside tb n vsz idx flip => simp [voxelsLeft] at hm
  | succ f ih =>
    intro s hg hm
    cases s with
    | Outside =>
      rw [WeightsAlongLOR.stateAfter, nextState_outside]
      exact stateAfter_outside f
    | Inside tb n vsz idx flip =>
      obtain ⟨it, s', hnext, hg', hlt⟩ := step_decreases tb n vsz idx flip hg
      have hns : WeightsAlongLOR.nextState
          (WeightsAlongLOR.Inside tb n vsz idx flip) = s' := by
        simp [WeightsAlongLOR.nextState, hnext]
      rw [WeightsAlongLOR.stateAfter, hns]
      exact ih s' hg' (by omega)

/-- A hit reported by `entryParam` implies distinct (flipped) endpoints. -/
theorem entryParam_ne {vbox : VoxelBox} {p1 p2 : V3 ℚ} {s : ℚ × ℚ}
    (h : vbox.entryParam p1 p2 = some s) : p1 ≠ p2 := by
  intro heq
  rw [VoxelBox.entryParam, if_pos heq] at h
  exact Option.noConfusion h

/-- The initial state is good. -/
theorem goodState_new (nrm : ℚ) (p1 p2 : V3 ℚ) (vbox : VoxelBox) :
    GoodState (WeightsAlongLOR.new nrm p1 p2 vbox) := by
  rw [WeightsAlongLOR.new]
  cases he : vbox.entryParam _ _ with
  | none => trivial
  | some s =>
    have hne := entryParam_ne he
    have hcomp : ∃ k : Fin 3,
        (V3.zipWith (fun (f : Bool) (c : ℚ) => if f then -c else c)
            (V3.map (fun d => decide (d < 0)) (V3.sub p2 p1)) p2).get k ≠
        (V3.zipWith (fun (f : Bool) (c : ℚ) => if f then -c else c)
            (V3.map (fun d => decide (d < 0)) (V3.sub p2 p1)) p1).get k := by
      by_contra hall
      push_neg at hall
      apply hne
      obtain ⟨a1, b1, c1⟩ := p1
      obtain ⟨a2, b2, c2⟩ := p2
      have h0 := hall 0
      have h1 := hall 1
      have h2 := hall 2
      simp [V3.zipWith, V3.map, V3.sub, V3.get] at h0 h1 h2
      simp [V3.zipWith, V3.map, V3.sub, h0, h1, h2]
    refine ⟨?_, ?_⟩
    · obtain ⟨k, hk⟩ := hcomp
      refine ⟨k, ?_⟩
      simp only [V3.sub, V3.get_zipWith, V3.get_map, fmulPos_isSome] at hk ⊢
      exact fdiv_isSome _ _ (sub_ne_zero_of_ne hk)
    · intro k
      simp only [V3.get_zipWith, V3.get_map, fmulPos_isSome]

/-- Model: `new` yields `Outside` or an `Inside` state whose voxel counts are the
box's. -/
theorem new_shape (nrm : ℚ) (p1 p2 : V3 ℚ) (vbox : VoxelBox) :
    WeightsAlongLOR.new nrm p1 p2 vbox = WeightsAlongLOR.Outside ∨
    ∃ tb vsz idx flip, WeightsAlongLOR.new nrm p1 p2 vbox =
      WeightsAlongLOR.Inside tb vbox.n vsz idx flip := by
  rw [WeightsAlongLOR.new]
  cases vbox.entryParam _ _ with
  | none => exact Or.inl rfl
  | some s => exact Or.inr ⟨_, _, _, _, rfl⟩

theorem voxelsLeft_new (nrm : ℚ) (p1 p2 : V3 ℚ) (vbox : VoxelBox) :
    voxelsLeft (WeightsAlongLOR.new nrm p1 p2 vbox) ≤
      vbox.n.x + vbox.n.y + vbox.n.z + 1 := by
  rcases new_shape nrm p1 p2 vbox with h | ⟨tb, vsz, idx, flip, h⟩ <;> rw [h]
  · simp [voxelsLeft]
  · simp only [voxelsLeft]
    omega


/-! ### Claims C1-C3: the traversal -/

/-- Evaluation of the traversal at the corner-exit LOR used by the two
theorems below: the LOR `(-6,-7/2,0) → (2,5/2,0)` leaves the box
`half_width (2,1,1)`, `n (2,1,1)` exactly through the point `(0,1,0)`,
which is simultaneously an x-voxel boundary and the box's y face. -/
theorem cornerExit_runList :
    WeightsAlongLOR.runList
      (WeightsAlongLOR.new 10 ⟨-6, -7/2, 0⟩ ⟨2, 5/2, 0⟩
        (VoxelBox.new ⟨2, 1, 1⟩ ⟨2, 1, 1⟩)) 5 =
    [(⟨0, 0, 0⟩, 5/2), (⟨1, 1, 0⟩, 5/2)] := by
  have hf4 : (⌊(1/4 : ℚ)⌋ : ℤ) = 0 := by rw [Int.floor_eq_iff] <;> norm_num
  have hf2 : (⌊(1/2 : ℚ)⌋ : ℤ) = 0 := by rw [Int.floor_eq_iff] <;> norm_num
  have hr4 : Int.fract (1/4 : ℚ) = 1/4 := by rw [Int.fract_eq_self] <;> norm_num
  have hr2 : Int.fract (1/2 : ℚ) = 1/2 := by rw [Int.fract_eq_self] <;> norm_num
  norm_num [VoxelBox.new, VoxelBox.mkVoxelSize, VoxelBox.entryParam, slabParam,
    WeightsAlongLOR.new, WeightsAlongLOR.next, WeightsAlongLOR.runList,
    argmin, flt, fle0, fsub, fdiv, fmulPos, snapEps,
    V3.zipWith, V3.sub, V3.add, V3.smul, V3.map, V3.ofFn, V3.get,
    abs_lt, hf4, hf2, hr4, hr2]

/-- C1: the sum of the yielded chord lengths is claimed to equal the length
of the LOR's portion inside the box, within `1e-6·‖p2-p1‖`.  The code
violates this: for the LOR `(-6,-7/2,0) → (2,5/2,0)` (`‖p2-p1‖ = 10`) and
the box `half_width (2,1,1)`, `n (2,1,1)`, the yielded chords sum to `5`
while the in-box portion has length `5/2`.  The LOR exits through a point
that is a voxel corner: both axes reset in that step but only the argmin
axis is compared with its voxel count, so the traversal stays `Inside` and
yields one spurious extra chord. -/
theorem traversal_corner_exit_breaks_length_sum :
    (10 : ℚ) * 10 = normSq (V3.sub ⟨2, 5/2, 0⟩ ⟨-6, -7/2, 0⟩) ∧
    ((WeightsAlongLOR.runList
        (WeightsAlongLOR.new 10 ⟨-6, -7/2, 0⟩ ⟨2, 5/2, 0⟩
          (VoxelBox.new ⟨2, 1, 1⟩ ⟨2, 1, 1⟩)) 5).map Prod.snd).sum = 5 ∧
    inBoxLength 10 ⟨-6, -7/2, 0⟩ ⟨2, 5/2, 0⟩ (VoxelBox.new ⟨2, 1, 1⟩ ⟨2, 1, 1⟩)
      = 5/2 ∧
    ¬ |(5 : ℚ) - 5/2| ≤ (1/1000000) * 10 := by
  refine ⟨by norm_num [normSq, V3.sub, V3.zipWith], ?_, ?_, ?_⟩
  · rw [cornerExit_runList]; norm_num
  · norm_num [inBoxLength, VoxelBox.new, VoxelBox.mkVoxelSize,
      VoxelBox.entryParam, slabParam, V3.sub, V3.zipWith]
  · rw [show (5 : ℚ) - 5/2 = 5/2 by norm_num,
      abs_of_nonneg (by norm_num : (0:ℚ) ≤ 5/2)]
    norm_num

/-- C2: every yielded voxel index is claimed to satisfy `index[k] < n[k]`
on every axis, corner crossings included.  The code violates this at the
corner-exit LOR of `cornerExit_runList`: the second yielded pair carries
index `(1, 1, 0)`, whose y component equals `n.y = 1`, outside `[0, n.y)`. -/
theorem traversal_corner_exit_escapes_index_range :
    (10 : ℚ) * 10 = normSq (V3.sub ⟨2, 5/2, 0⟩ ⟨-6, -7/2, 0⟩) ∧
    ((WeightsAlongLOR.runList
        (WeightsAlongLOR.new 10 ⟨-6, -7/2, 0⟩ ⟨2, 5/2, 0⟩
          (VoxelBox.new ⟨2, 1, 1⟩ ⟨2, 1, 1⟩)) 5).map Prod.fst) =
      [⟨0, 0, 0⟩, ⟨1, 1, 0⟩] ∧
    ¬ ((⟨1, 1, 0⟩ : V3 ℕ).y < (VoxelBox.new ⟨2, 1, 1⟩ ⟨2, 1, 1⟩).n.y) := by
  refine ⟨by norm_num [normSq, V3.sub, V3.zipWith], ?_, ?_⟩
  · rw [cornerExit_runList]; norm_num
  · norm_num [VoxelBox.new]

/-- C3: the traversal iterator is finite — from any input, after at most
`n.x + n.y + n.z + 1` calls the state is `Outside`; `Outside` is absorbing
(`next` returns `none` there and every later state is still `Outside`). -/
theorem traversal_iterator_finite (nrm : ℚ) (p1 p2 : V3 ℚ) (vbox : VoxelBox) :
    WeightsAlongLOR.stateAfter (WeightsAlongLOR.new nrm p1 p2 vbox)
      (vbox.n.x + vbox.n.y + vbox.n.z + 1) = WeightsAlongLOR.Outside ∧
    WeightsAlongLOR.next WeightsAlongLOR.Outside = none ∧
    ∀ m, WeightsAlongLOR.stateAfter WeightsAlongLOR.Outside m =
      WeightsAlongLOR.Outside := by
  refine ⟨?_, rfl, stateAfter_outside⟩
  exact stateAfter_eq_outside _ _ (goodState_new nrm p1 p2 vbox)
    (voxelsLeft_new nrm p1 p2 vbox)


/-! ### Claim C5: the TOF adapter -/

theorem tofAdjust_length (g : ℚ → ℚ) (D : ℚ) (ws : List (V3 ℕ × ℚ)) :
    (tofAdjust g D ws).length = ws.length := by
  induction ws generalizing D with
  | nil => rfl
  | cons iw rest ih =>
    obtain ⟨i, w⟩ := iw
    simp [tofAdjust, ih]

/-- Closed form of the TOF adapter's stateful fold: the `k`-th output pair
keeps its index and multiplies its weight by `g` at
`D - (sum of the earlier weights) - (half its own weight)`. -/
theorem tofAdjust_getD (g : ℚ → ℚ) (ws : List (V3 ℕ × ℚ)) :
    ∀ (D : ℚ) (k : ℕ), k < ws.length →
      (tofAdjust g D ws).getD k (⟨0, 0, 0⟩, 0) =
        ((ws.getD k (⟨0, 0, 0⟩, 0)).1,
         (ws.getD k (⟨0, 0, 0⟩, 0)).2 *
           g (D - ((ws.take k).map Prod.snd).sum -
               (ws.getD k (⟨0, 0, 0⟩, 0)).2 / 2)) := by
  induction ws with
  | nil => intro D k h; simp at h
  | cons iw rest ih =>
    obtain ⟨i, w⟩ := iw
    intro D k h
    cases k with
    | zero => simp [tofAdjust]
    | succ k =>
      simp only [tofAdjust, List.getD_cons_succ, List.take_succ_cons,
        List.map_cons, List.sum_cons]
      rw [ih (D - w) k (by simpa using h)]
      rw [show D - w - ((rest.take k).map Prod.snd).sum =
          D - (w + ((rest.take k).map Prod.snd).sum) by ring]

/-- C5: for a LOR that hits the box (`entryParam = some (s_in, s_out)`, with
`nrm = ‖p2-p1‖`), the TOF adapter computes the peak distance
`½·(nrm + c·(t1-t2))`, initialises `distance_to_peak` to that value minus
the `p1`-to-entry distance `s_in·nrm`, multiplies each yielded weight by
`g (distance_to_peak - weight/2)`, and then decreases `distance_to_peak`
by the weight — so the `k`-th output weight is the `k`-th input weight
times `g` at the peak distance minus the entry distance, minus the earlier
weights, minus half its own. -/
theorem tof_gaussian_peak_and_bookkeeping (g : ℚ → ℚ) (nrm : ℚ)
    (p1 p2 : V3 ℚ) (t1 t2 : ℚ) (vbox : VoxelBox) (ws : List (V3 ℕ × ℚ))
    (si so : ℚ) (hn : nrm * nrm = normSq (V3.sub p2 p1)) (h0 : 0 ≤ nrm)
    (he : vbox.entryParam p1 p2 = some (si, so)) :
    tof_gaussian g nrm p1 p2 t1 t2 vbox ws =
      some (tofAdjust g ((1 / 2) * (nrm + c * (t1 - t2)) - si * nrm) ws) ∧
    ∀ k, k < ws.length →
      (tofAdjust g ((1 / 2) * (nrm + c * (t1 - t2)) - si * nrm) ws).getD k
          (⟨0, 0, 0⟩, 0) =
        ((ws.getD k (⟨0, 0, 0⟩, 0)).1,
         (ws.getD k (⟨0, 0, 0⟩, 0)).2 *
           g ((1 / 2) * (nrm + c * (t1 - t2)) - si * nrm
              - ((ws.take k).map Prod.snd).sum
              - (ws.getD k (⟨0, 0, 0⟩, 0)).2 / 2)) := by
  constructor
  · rw [tof_gaussian, he]
  · intro k hk
    exact tofAdjust_getD g ws _ k hk

/-- Witness for C5 at a concrete input: the horizontal LOR
`(-15,-4,0) → (15,-4,0)` (norm 30) through the box `half_width (4,5,1)`,
`n (4,3,1)` enters at `s_in = 11/30`. -/
theorem tof_gaussian_peak_and_bookkeeping_witness :
    ((30 : ℚ) * 30 = normSq (V3.sub ⟨15, -4, 0⟩ ⟨-15, -4, 0⟩) ∧
     (0 : ℚ) ≤ 30 ∧
     (VoxelBox.new ⟨4, 5, 1⟩ ⟨4, 3, 1⟩).entryParam ⟨-15, -4, 0⟩ ⟨15, -4, 0⟩ =
       some (11/30, 19/30)) ∧
    (tof_gaussian (fun q => q) 30 ⟨-15, -4, 0⟩ ⟨15, -4, 0⟩ 0 0
        (VoxelBox.new ⟨4, 5, 1⟩ ⟨4, 3, 1⟩) [(⟨0, 0, 0⟩, 2)] =
      some (tofAdjust (fun q => q)
        ((1 / 2) * (30 + c * (0 - 0)) - (11/30) * 30) [(⟨0, 0, 0⟩, 2)]) ∧
     ∀ k, k < ([(⟨0, 0, 0⟩, 2)] : List (V3 ℕ × ℚ)).length →
      (tofAdjust (fun q => q) ((1 / 2) * (30 + c * (0 - 0)) - (11/30) * 30)
          [(⟨0, 0, 0⟩, 2)]).getD k (⟨0, 0, 0⟩, 0) =
        ((([(⟨0, 0, 0⟩, 2)] : List (V3 ℕ × ℚ)).getD k (⟨0, 0, 0⟩, 0)).1,
         (([(⟨0, 0, 0⟩, 2)] : List (V3 ℕ × ℚ)).getD k (⟨0, 0, 0⟩, 0)).2 *
           (fun q => q) ((1 / 2) * (30 + c * (0 - 0)) - (11/30) * 30
              - ((([(⟨0, 0, 0⟩, 2)] : List (V3 ℕ × ℚ)).take k).map Prod.snd).sum
              - (([(⟨0, 0, 0⟩, 2)] : List (V3 ℕ × ℚ)).getD k (⟨0, 0, 0⟩, 0)).2 / 2))) := by
  have hn : (30 : ℚ) * 30 = normSq (V3.sub ⟨15, -4, 0⟩ ⟨-15, -4, 0⟩) := by
    norm_num [normSq, V3.sub, V3.zipWith]
  have he : (VoxelBox.new ⟨4, 5, 1⟩ ⟨4, 3, 1⟩).entryParam ⟨-15, -4, 0⟩
      ⟨15, -4, 0⟩ = some (11/30, 19/30) := by
    norm_num [VoxelBox.new, VoxelBox.mkVoxelSize, VoxelBox.entryParam,
      slabParam, V3.sub, V3.zipWith]
  exact ⟨⟨hn, by norm_num, he⟩,
    tof_gaussian_peak_and_bookkeeping (fun q => q) 30 ⟨-15, -4, 0⟩
      ⟨15, -4, 0⟩ 0 0 (VoxelBox.new ⟨4, 5, 1⟩ ⟨4, 3, 1⟩) [(⟨0, 0, 0⟩, 2)]
      (11/30) (19/30) hn (by norm_num) he⟩

/-! ### Claim C4: the Gaussian TOF factor -/

/-- C4: the Gaussian applied to each chord by `tof_gaussian` is
`make_gauss` (src/weights.rs), and it deviates from the claimed formula:
its normalisation is `1/(σ·√π)` — the constant *named* `root_two_pi` is
assigned `PI.sqrt()` — and it never truncates, while the claimed Gaussian
(`gauss_spec`) has peak `1/(σ·√(2π))` and is 0 beyond `cutoff·σ`.
`src/gauss.rs`'s `make_gauss` (`Gauss.make_gauss`) implements the claimed
formula exactly, for every `σ`, cutoff and `x`. -/
theorem make_gauss_deviates_from_claimed_gaussian :
    make_gauss 1 0 ≠ gauss_spec 1 none 0 ∧
    gauss_spec 1 (some 3) 4 = 0 ∧
    make_gauss 1 4 ≠ 0 ∧
    ∀ sigma cutoff x, Gauss.make_gauss sigma cutoff x = gauss_spec sigma cutoff x := by
  have hpi : (0 : ℝ) < Real.pi := Real.pi_pos
  have hsp : Real.sqrt Real.pi ≠ Real.sqrt (2 * Real.pi) := by
    intro h
    have hc : Real.sqrt Real.pi * Real.sqrt Real.pi =
        Real.sqrt (2 * Real.pi) * Real.sqrt (2 * Real.pi) := by rw [h]
    rw [Real.mul_self_sqrt hpi.le,
      Real.mul_self_sqrt (by positivity : (0 : ℝ) ≤ 2 * Real.pi)] at hc
    linarith
  refine ⟨?_, ?_, ?_, ?_⟩
  · -- peak 1/√π versus claimed 1/√(2π)
    have hA : make_gauss 1 0 = 1 / Real.sqrt Real.pi := by
      simp only [make_gauss]
      norm_num
    have hB : gauss_spec 1 none 0 = 1 / Real.sqrt (2 * Real.pi) := by
      rw [gauss_spec, dif_pos (by intro w hw; cases hw)]
      norm_num
    rw [hA, hB]
    intro h
    rw [one_div, one_div, inv_inj] at h
    exact hsp h
  · -- the claimed Gaussian is truncated beyond cutoff·σ
    have hc : ¬ ∀ w ∈ (some (3 : ℝ)), |(4 : ℝ)| < w * 1 := by
      intro hall
      have h4 := hall 3 rfl
      rw [abs_of_nonneg (by norm_num : (0 : ℝ) ≤ 4)] at h4
      norm_num at h4
    rw [gauss_spec, dif_neg hc]
  · -- the code's Gaussian is never 0
    simp only [make_gauss]
    positivity
  · -- src/gauss.rs implements the claimed formula
    intro sigma cutoff x
    simp only [Gauss.make_gauss, gauss_spec]
    by_cases h : ∀ w ∈ cutoff, |x| < w * sigma
    · rw [dif_pos h, dif_pos h, pow_two]
    · rw [dif_neg h, dif_neg h]


/-! ### Claims C6, C8: the scattergram -/

/-- C6 counterexample: on a fresh scattergram both bin counts are 0, and
`Scattergram::value` — which has no zero-denominator guard — computes the
`f32` division `0.0 / 0.0`, i.e. NaN (`none`), not 0. -/
theorem scattergram_value_nan_on_empty :
    Scattergram.value (fun _ _ => true) Scattergram.new lorZero = none ∧
    Scattergram.value (fun _ _ => true) Scattergram.new lorZero ≠ some 0 := by
  constructor
  · simp [Scattergram.value, Scattergram.new, Lorogram.value]
  · simp [Scattergram.value, Scattergram.new, Lorogram.value]

/-- C6 (amended): `value(l)` is `scatters(l) / (trues(l) + scatters(l))`
whenever some count at `l`'s bin is nonzero, and NaN (`none`) — not 0 —
when both counts are zero. -/
theorem scattergram_value_formula (sameBin : LOR → LOR → Bool)
    (sg : Scattergram) (l : LOR) :
    (0 < Lorogram.value sameBin sg.trues l +
        Lorogram.value sameBin sg.scatters l →
      Scattergram.value sameBin sg l =
        some ((Lorogram.value sameBin sg.scatters l : ℚ) /
          ((Lorogram.value sameBin sg.trues l : ℚ) +
           (Lorogram.value sameBin sg.scatters l : ℚ)))) ∧
    (Lorogram.value sameBin sg.trues l +
        Lorogram.value sameBin sg.scatters l = 0 →
      Scattergram.value sameBin sg l = none) := by
  constructor
  · intro h
    have hpos : (0 : ℚ) < (Lorogram.value sameBin sg.trues l : ℚ) +
        (Lorogram.value sameBin sg.scatters l : ℚ) := by exact_mod_cast h
    simp only [Scattergram.value]
    rw [if_neg (ne_of_gt hpos)]
  · intro h
    have h0 : ((Lorogram.value sameBin sg.trues l : ℚ) +
        (Lorogram.value sameBin sg.scatters l : ℚ)) = 0 := by exact_mod_cast h
    simp only [Scattergram.value]
    rw [if_pos h0]

/-- Witness for C6's amended statement: one `true` fill makes the
denominator 1 and the value `0/1`. -/
theorem scattergram_value_formula_witness :
    (0 < Lorogram.value (fun _ _ => true) [lorZero] lorZero +
        Lorogram.value (fun _ _ => true) [] lorZero) ∧
    Scattergram.value (fun _ _ => true) ⟨[lorZero], []⟩ lorZero =
      some ((Lorogram.value (fun _ _ => true) [] lorZero : ℚ) /
        ((Lorogram.value (fun _ _ => true) [lorZero] lorZero : ℚ) +
         (Lorogram.value (fun _ _ => true) [] lorZero : ℚ))) := by
  have h : 0 < Lorogram.value (fun _ _ => true) [lorZero] lorZero +
      Lorogram.value (fun _ _ => true) [] lorZero := by
    simp [Lorogram.value]
  exact ⟨h, (scattergram_value_formula (fun _ _ => true) ⟨[lorZero], []⟩ lorZero).1 h⟩

/-- C8 counterexample: a record whose `y1` is NaN while `x1` and `x2` are
finite is NOT skipped — the code tests only `x1.is_nan() || x2.is_nan()` —
and, having energies `600 ≥ 511`, it is filled into `trues`. -/
theorem fill_scattergram_keeps_nan_y :
    fill_scattergram [h5NaNy] =
      some { trues := [LOR.fromHdf5 h5NaNy], scatters := [] } ∧
    fill_scattergram [h5NaNy] ≠ some Scattergram.new := by
  have h : fill_scattergram [h5NaNy] =
      some { trues := [LOR.fromHdf5 h5NaNy], scatters := [] } := by
    rw [fill_scattergram, fill_scattergram_loop]
    norm_num [h5NaNy, nlt, nmin, min_self, Scattergram.fill, Scattergram.new,
      fill_scattergram_loop]
  refine ⟨h, ?_⟩
  rw [h]
  simp [Scattergram.new]

/-- The loop of `fill_scattergram` from an arbitrary accumulator. -/
theorem fill_scattergram_go (lors : List Hdf5Lor) :
    ∀ sg : Scattergram,
      fill_scattergram_loop sg lors =
      some ⟨sg.trues ++
          ((lors.filter (fun h => !skipLor h && !isScatter h)).map LOR.fromHdf5),
        sg.scatters ++
          ((lors.filter (fun h => !skipLor h && isScatter h)).map LOR.fromHdf5)⟩ := by
  induction lors with
  | nil => intro sg; simp [fill_scattergram_loop]
  | cons h rest ih =>
    intro sg
    rw [fill_scattergram_loop]
    by_cases hskip : (h.x1.isNone || h.x2.isNone) = true
    · rw [if_pos hskip, ih sg]
      have hp1 : (!skipLor h && !isScatter h) = false := by simp [skipLor, hskip]
      have hp2 : (!skipLor h && isScatter h) = false := by simp [skipLor, hskip]
      simp [List.filter_cons, hp1, hp2]
    · rw [if_neg hskip]
      by_cases hsc : nlt (nmin h.E1 h.E2) (some 511) = true
      · rw [if_pos hsc]
        have hp1 : (!skipLor h && !isScatter h) = false := by
          simp [isScatter, hsc]
        have hp2 : (!skipLor h && isScatter h) = true := by
          simp [skipLor, isScatter, hskip, hsc]
        simp only [Scattergram.fill, ih]
        simp [List.filter_cons, hp1, hp2]
      · rw [if_neg hsc]
        have hp1 : (!skipLor h && !isScatter h) = true := by
          simp [skipLor, isScatter, hskip, hsc]
        have hp2 : (!skipLor h && isScatter h) = false := by
          simp [isScatter, hsc]
        simp only [Scattergram.fill, ih]
        simp [List.filter_cons, hp1, hp2]

/-- C8 (amended): `fill_scattergram` skips exactly the records whose `x1`
or `x2` is NaN (NaN in any other field does not cause a skip); every other
record is classified `Scatter` iff `min(E1, E2) < 511` under `f32`
`min`/`<` semantics and filled into exactly the matching histogram; and
`Scattergram::fill` does not accept `Prompt::Random` (it panics, `none`). -/
theorem fill_scattergram_classification (lors : List Hdf5Lor) :
    fill_scattergram lors =
      some ⟨(lors.filter (fun h => !skipLor h && !isScatter h)).map LOR.fromHdf5,
        (lors.filter (fun h => !skipLor h && isScatter h)).map LOR.fromHdf5⟩ ∧
    ∀ (sg : Scattergram) (lor : LOR), sg.fill Prompt.Random lor = none := by
  constructor
  · have hgo := fill_scattergram_go lors Scattergram.new
    simpa [fill_scattergram, Scattergram.new] using hgo
  · intro sg lor
    rfl

/-! ### Claim C9: the LOR reader on an empty selection -/

/-- C9: when the event range leaves zero records, `read_lors` computes
`100 * used / (used + rejected)` with `used + rejected = 0` — an integer
division by zero, which panics (`none`) instead of warning and returning
the empty list; when records exist but the cuts reject them all, it does
return `Ok` with an empty list. -/
theorem read_lors_panics_on_empty_selection :
    read_lors ⟨none, none⟩ ⟨none, none⟩ [] = none ∧
    read_lors ⟨some 300, some 400⟩ ⟨none, none⟩ [h5NaNy] = some [] := by
  constructor
  · simp [read_lors]
  · simp only [read_lors, h5NaNy, BoundPair.contains, List.filter]
    norm_num

/-! ### Claim C10: voxel centres -/

/-- C10: `voxel_centre` returns `(i + 0.5) ⊙ voxel_size` without the
`-half_width` translation, so for the box with `half_width (1,1,1)` and a
single voxel it puts the centre of voxel `(0,0,0)` at `(1,1,1)`, while the
claimed centre-origin mapping puts it at the origin. -/
theorem voxel_centre_misses_half_width_shift :
    (VoxelBox.new ⟨1, 1, 1⟩ ⟨1, 1, 1⟩).voxel_centre ⟨0, 0, 0⟩ = ⟨1, 1, 1⟩ ∧
    voxel_centre_spec (VoxelBox.new ⟨1, 1, 1⟩ ⟨1, 1, 1⟩) ⟨0, 0, 0⟩ =
      ⟨0, 0, 0⟩ ∧
    (VoxelBox.new ⟨1, 1, 1⟩ ⟨1, 1, 1⟩).voxel_centre ⟨0, 0, 0⟩ ≠
      voxel_centre_spec (VoxelBox.new ⟨1, 1, 1⟩ ⟨1, 1, 1⟩) ⟨0, 0, 0⟩ := by
  have h1 : (VoxelBox.new ⟨1, 1, 1⟩ ⟨1, 1, 1⟩).voxel_centre ⟨0, 0, 0⟩ =
      ⟨1, 1, 1⟩ := by
    norm_num [VoxelBox.new, VoxelBox.mkVoxelSize, VoxelBox.voxel_centre,
      V3.zipWith]
  have h2 : voxel_centre_spec (VoxelBox.new ⟨1, 1, 1⟩ ⟨1, 1, 1⟩) ⟨0, 0, 0⟩ =
      ⟨0, 0, 0⟩ := by
    norm_num [VoxelBox.new, VoxelBox.mkVoxelSize, voxel_centre_spec,
      V3.zipWith, V3.add, V3.map]
  refine ⟨h1, h2, ?_⟩
  rw [h1, h2]
  simp


/-! ### Claim C7: the cyclic axis -/

theorem wrapDownGo_congr (hi range : ℚ) :
    ∀ (fuel : ℕ) (x : ℚ), ∃ m : ℤ, wrapDownGo hi range fuel x = x - m * range := by
  intro fuel
  induction fuel with
  | zero => intro x; exact ⟨0, by simp [wrapDownGo]⟩
  | succ f ih =>
    intro x
    rw [wrapDownGo]
    by_cases hx : hi ≤ x
    · rw [if_pos hx]
      obtain ⟨m, hm⟩ := ih (x - range)
      exact ⟨m + 1, by rw [hm]; push_cast; ring⟩
    · rw [if_neg hx]
      exact ⟨0, by simp⟩

theorem wrapDownGo_lt (hi range : ℚ) (hr : 0 < range) :
    ∀ (fuel : ℕ) (x : ℚ), (x - hi) / range < (fuel : ℚ) →
      wrapDownGo hi range fuel x < hi := by
  intro fuel
  induction fuel with
  | zero =>
    intro x h
    rw [wrapDownGo]
    have h2 := (div_lt_iff hr).mp h
    push_cast at h2
    linarith
  | succ f ih =>
    intro x h
    rw [wrapDownGo]
    by_cases hx : hi ≤ x
    · rw [if_pos hx]
      apply ih
      have heq : (x - range - hi) / range = (x - hi) / range - 1 := by
        field_simp
        ring
      rw [heq]
      push_cast at h ⊢
      linarith
    · rw [if_neg hx]
      exact not_le.mp hx

theorem wrapDown_lt (hi range x : ℚ) (hr : 0 < range) :
    wrapDown hi range x < hi := by
  rw [wrapDown]
  apply wrapDownGo_lt hi range hr
  calc (x - hi) / range < ((⌊(x - hi) / range⌋ + 1 : ℤ) : ℚ) := by
        push_cast
        exact Int.lt_floor_add_one _
    _ ≤ (((⌊(x - hi) / range⌋ + 1).toNat : ℕ) : ℚ) := by
        exact_mod_cast Int.self_le_toNat _

theorem wrapDown_congr (hi range x : ℚ) :
    ∃ m : ℤ, wrapDown hi range x = x - m * range :=
  wrapDownGo_congr hi range _ x

theorem wrapUpGo_congr (lo range : ℚ) :
    ∀ (fuel : ℕ) (x : ℚ), ∃ m : ℤ, wrapUpGo lo range fuel x = x + m * range := by
  intro fuel
  induction fuel with
  | zero => intro x; exact ⟨0, by simp [wrapUpGo]⟩
  | succ f ih =>
    intro x
    rw [wrapUpGo]
    by_cases hx : x < lo
    · rw [if_pos hx]
      obtain ⟨m, hm⟩ := ih (x + range)
      exact ⟨m + 1, by rw [hm]; push_cast; ring⟩
    · rw [if_neg hx]
      exact ⟨0, by simp⟩

theorem wrapUpGo_ge (lo range : ℚ) (hr : 0 < range) :
    ∀ (fuel : ℕ) (x : ℚ), (lo - x) / range ≤ (fuel : ℚ) →
      lo ≤ wrapUpGo lo range fuel x := by
  intro fuel
  induction fuel with
  | zero =>
    intro x h
    rw [wrapUpGo]
    have h2 := (div_le_iff hr).mp h
    push_cast at h2
    linarith
  | succ f ih =>
    intro x h
    rw [wrapUpGo]
    by_cases hx : x < lo
    · rw [if_pos hx]
      apply ih
      have heq : (lo - (x + range)) / range = (lo - x) / range - 1 := by
        field_simp
        ring
      rw [heq]
      push_cast at h ⊢
      linarith
    · rw [if_neg hx]
      exact not_lt.mp hx

theorem wrapUpGo_lt (lo range : ℚ) (hr : 0 < range) :
    ∀ (fuel : ℕ) (x : ℚ), x < lo + range →
      wrapUpGo lo range fuel x < lo + range := by
  intro fuel
  induction fuel with
  | zero => intro x h; rw [wrapUpGo]; exact h
  | succ f ih =>
    intro x h
    rw [wrapUpGo]
    by_cases hx : x < lo
    · rw [if_pos hx]
      exact ih (x + range) (by linarith)
    · rw [if_neg hx]
      exact h

theorem wrapUp_ge (lo range x : ℚ) (hr : 0 < range) :
    lo ≤ wrapUp lo range x := by
  rw [wrapUp]
  apply wrapUpGo_ge lo range hr
  calc (lo - x) / range ≤ ((⌈(lo - x) / range⌉ : ℤ) : ℚ) := by
        exact_mod_cast Int.le_ceil _
    _ ≤ ((((⌈(lo - x) / range⌉).toNat : ℕ) : ℚ)) := by
        exact_mod_cast Int.self_le_toNat _

theorem wrapUp_congr (lo range x : ℚ) :
    ∃ m : ℤ, wrapUp lo range x = x + m * range :=
  wrapUpGo_congr lo range _ x

/-- After the two wrap loops the coordinate lies in `[lo, hi)` and differs
from the original by an integer multiple of the period. -/
theorem wrap_window (lo hi x : ℚ) (h : lo < hi) :
    lo ≤ wrapUp lo (hi - lo) (wrapDown hi (hi - lo) x) ∧
    wrapUp lo (hi - lo) (wrapDown hi (hi - lo) x) < hi ∧
    ∃ m : ℤ,
      wrapUp lo (hi - lo) (wrapDown hi (hi - lo) x) = x + m * (hi - lo) := by
  have hr : (0 : ℚ) < hi - lo := by linarith
  have h1 : wrapDown hi (hi - lo) x < hi := wrapDown_lt hi (hi - lo) x hr
  refine ⟨wrapUp_ge lo (hi - lo) _ hr, ?_, ?_⟩
  · have h2 := wrapUpGo_lt lo (hi - lo) hr ((⌈(lo - wrapDown hi (hi - lo) x) / (hi - lo)⌉).toNat)
      (wrapDown hi (hi - lo) x) (by linarith)
    rw [wrapUp]
    linarith
  · obtain ⟨m1, hm1⟩ := wrapDown_congr hi (hi - lo) x
    obtain ⟨m2, hm2⟩ := wrapUp_congr lo (hi - lo) (wrapDown hi (hi - lo) x)
    refine ⟨m2 - m1, ?_⟩
    rw [hm2, hm1]
    push_cast
    ring

/-- Two values of `[lo, hi)` that differ by an integer multiple of the
period are equal. -/
theorem wrap_unique (lo hi a b : ℚ) (ha1 : lo ≤ a) (ha2 : a < hi)
    (hb1 : lo ≤ b) (hb2 : b < hi) (m : ℤ) (hm : a = b + m * (hi - lo)) :
    a = b := by
  have hr : (0 : ℚ) < hi - lo := by linarith
  have hm0 : m = 0 := by
    by_contra hne
    rcases lt_or_gt_of_ne hne with hneg | hpos
    · have hm1 : (m : ℚ) ≤ -1 := by
        have hle : m ≤ -1 := by omega
        exact_mod_cast hle
      have : (m : ℚ) * (hi - lo) ≤ -1 * (hi - lo) :=
        mul_le_mul_of_nonneg_right hm1 hr.le
      linarith
    · have hm1 : (1 : ℚ) ≤ (m : ℚ) := by exact_mod_cast hpos
      have : 1 * (hi - lo) ≤ (m : ℚ) * (hi - lo) :=
        mul_le_mul_of_nonneg_right hm1 hr.le
      linarith
  rw [hm0] at hm
  simpa using hm

/-- Shifting the coordinate by an integer multiple of the period does not
change its wrapped representative. -/
theorem wrap_shift (lo hi x : ℚ) (h : lo < hi) (k : ℤ) :
    wrapUp lo (hi - lo) (wrapDown hi (hi - lo) (x + k * (hi - lo))) =
    wrapUp lo (hi - lo) (wrapDown hi (hi - lo) x) := by
  obtain ⟨ha1, ha2, m1, hm1⟩ := wrap_window lo hi (x + k * (hi - lo)) h
  obtain ⟨hb1, hb2, m2, hm2⟩ := wrap_window lo hi x h
  apply wrap_unique lo hi _ _ ha1 ha2 hb1 hb2 (k + m1 - m2)
  rw [hm1, hm2]
  push_cast
  ring

/-- Periodicity of `Cyclic::index`. -/
theorem cyclic_index_periodic (nbins : ℕ) (lo hi : ℚ) (h : lo < hi)
    (x : ℚ) (k : ℤ) :
    (Cyclic.new nbins lo hi).index (x + k * (hi - lo)) =
      (Cyclic.new nbins lo hi).index x := by
  simp only [Cyclic.index, Cyclic.new]
  rw [wrap_shift lo hi x h k]

/-- The index of a wrapped coordinate is an honest bin in `[0, nbins)`. -/
theorem cyclic_index_lt (nbins : ℕ) (lo hi : ℚ) (h : lo < hi)
    (hn : 1 ≤ nbins) (x : ℚ) :
    ∃ i, (Cyclic.new nbins lo hi).index x = some i ∧ i < nbins := by
  obtain ⟨hw1, hw2, _⟩ := wrap_window lo hi x h
  have hr : (0 : ℚ) < hi - lo := by linarith
  simp only [Cyclic.index, Cyclic.new, Uniform.index]
  rw [if_neg (not_lt.mpr hw1), if_neg (not_le.mpr hw2)]
  set w := wrapUp lo (hi - lo) (wrapDown hi (hi - lo) x) with hwdef
  have hnq : (1 : ℚ) ≤ (nbins : ℚ) := by exact_mod_cast hn
  have harg1 : (0 : ℚ) ≤ (w - lo) * nbins / (hi - lo) := by
    apply div_nonneg _ hr.le
    apply mul_nonneg (by linarith) (by positivity)
  have harg2 : (w - lo) * nbins / (hi - lo) < (nbins : ℚ) := by
    rw [div_lt_iff hr]
    have hwl : w - lo < hi - lo := by linarith
    calc (w - lo) * nbins < (hi - lo) * nbins := by
          apply mul_lt_mul_of_pos_right hwl (by linarith)
      _ = (nbins : ℚ) * (hi - lo) := by ring
  have hfl1 : (0 : ℤ) ≤ ⌊(w - lo) * nbins / (hi - lo)⌋ := Int.floor_nonneg.mpr harg1
  have hfl2 : ⌊(w - lo) * nbins / (hi - lo)⌋ < (nbins : ℤ) := by
    apply Int.floor_lt.mpr
    exact_mod_cast harg2
  refine ⟨1 + (⌊(w - lo) * nbins / (hi - lo)⌋).toNat - 1, by simp, ?_⟩
  omega

/-- C7: a cyclic axis built with `N` bins over `[low, high)` has exactly
`N` bins — `num_bins` is `N` and every index it returns lies in `[0, N)`
(no underflow or overflow bin) — and the bin index is invariant under
shifting the coordinate by any integer multiple of the period
`high - low`; in particular `axis_phi`'s binning, built over `[0, PI)`
with the `f32` constant `PI`, has period `pi32`. -/
theorem cyclic_axis_bins_and_period (nbins : ℕ) (lo hi : ℚ) (hn : 1 ≤ nbins)
    (hlh : lo < hi) (x : ℚ) (k : ℤ) :
    (Cyclic.new nbins lo hi).num_bins = nbins ∧
    (Cyclic.new nbins lo hi).index (x + k * (hi - lo)) =
      (Cyclic.new nbins lo hi).index x ∧
    (∃ i, (Cyclic.new nbins lo hi).index x = some i ∧ i < nbins) ∧
    ∀ (m : ℕ) (ψ : ℚ) (j : ℤ),
      (axis_phi m).index (ψ + j * pi32) = (axis_phi m).index ψ := by
  refine ⟨?_, cyclic_index_periodic nbins lo hi hlh x k,
    cyclic_index_lt nbins lo hi hlh hn x, ?_⟩
  · simp [Cyclic.num_bins, Cyclic.new, Uniform.num_bins]
  · intro m ψ j
    have hp := cyclic_index_periodic m 0 pi32 (by norm_num [pi32]) ψ j
    simpa [axis_phi] using hp

/-- Witness for C7 at a concrete axis (4 bins over `[0, 1)`, coordinate
`1/3`, shift 5 periods) and for the `axis_phi` part (2 bins, shift `-1`). -/
theorem cyclic_axis_bins_and_period_witness :
    (1 ≤ 4 ∧ (0 : ℚ) < 1) ∧
    ((Cyclic.new 4 0 1).num_bins = 4 ∧
     (Cyclic.new 4 0 1).index (1/3 + 5 * ((1 : ℚ) - 0)) =
       (Cyclic.new 4 0 1).index (1/3) ∧
     (∃ i, (Cyclic.new 4 0 1).index (1/3) = some i ∧ i < 4) ∧
     ∀ (m : ℕ) (ψ : ℚ) (j : ℤ),
       (axis_phi m).index (ψ + j * pi32) = (axis_phi m).index ψ) := by
  have h := cyclic_axis_bins_and_period 4 0 1 (by norm_num) (by norm_num)
    (1/3) 5
  exact ⟨⟨by norm_num, by norm_num⟩, by exact_mod_cast h⟩

end Petalo
